import Mathlib

/-!
Verification of the playlist reorder engine of rhythmtool.

The repository reorders the tracks of a Rhythmbox playlist: it groups the
location records by containing folder, then either shuffles or sorts the
folder order and the tracks inside each folder, and flattens the groups back
into one sequence.

Modelling conventions:
* Go strings are lists of byte values (`List Nat`); all comparisons in the
  source are byte-wise.
* The process-wide random generator (`rnd`, a `math/rand` generator seeded
  once per run) is an explicit `RandState`: an infinite stream of draws plus
  the position of the next draw, threaded through every operation that
  consumes randomness.  `rand.Shuffle` is the Fisher-Yates loop over that
  stream; the modulus models the bounded draw `Int63n(i+1)`.
* `log.Fatal` and runtime panics abort the run and are modelled as `Except`
  errors carrying which abort happened; an aborted run produces no output.
* Go's `sort.Strings` and `sort.Slice` are deterministic comparison sorts
  whose postcondition is a permutation that is non-decreasing with respect to
  the comparator; they are modelled by insertion sort over the corresponding
  non-strict relation.  (The tie order of the Go sort is unspecified; no
  property below depends on it.)
-/

namespace Rhythmtool

/-- A Go string, as its list of byte values. -/
abbrev Str : Type := List Nat

/-- Value of a hexadecimal digit byte, as in Go's `unhex`: accepts the bytes
of 0-9, a-f and A-F. -/
def hexVal (c : Nat) : Option Nat :=
  if 48 ≤ c ∧ c ≤ 57 then some (c - 48)
  else if 97 ≤ c ∧ c ≤ 102 then some (c - 87)
  else if 65 ≤ c ∧ c ≤ 70 then some (c - 55)
  else none

/-- Go's `url.QueryUnescape`: a percent byte (37) must be followed by two hex
digits and decodes to their value, a plus byte (43) decodes to a space (32),
every other byte is copied; a malformed percent escape fails. -/
def queryUnescape : Str → Option Str
  | [] => some []
  | 37 :: a :: b :: rest =>
    match hexVal a, hexVal b with
    | some x, some y => (queryUnescape rest).map fun t => (16 * x + y) :: t
    | _, _ => none
  | 37 :: _ => none
  | 43 :: rest => (queryUnescape rest).map fun t => 32 :: t
  | c :: rest => (queryUnescape rest).map fun t => c :: t

/-- The bytes of the scheme marker `file://`. -/
def fileScheme : Str := [102, 105, 108, 101, 58, 47, 47]

/-- Result of `Location.Text`: a value, the fatal unescape error
(`log.Fatal`), or the runtime panic of the slice `escapedStr[:7]` when the
decoded string is shorter than 7 bytes. -/
inductive TextResult : Type
  | ok (s : Str)
  | decodeError
  | panicSlice
deriving DecidableEq

/-- The method `Location.Text` of the source: percent-decode the location;
abort on a decode error; slice off the first 7 bytes when they read
`file://`.  The slice expression `escapedStr[:7]` is evaluated
unconditionally, so a decoded string shorter than 7 bytes panics. -/
def Location.Text (l : Str) : TextResult :=
  match queryUnescape l with
  | none => .decodeError
  | some s =>
    if s.length < 7 then .panicSlice
    else if s.take 7 = fileScheme then .ok (s.drop 7)
    else .ok s

/-- Go's `filepath.Split` (separator byte 47): the leaf is everything after
the final separator, the directory is the rest, trailing separator
included. -/
def splitPath (s : Str) : Str × Str :=
  let f := (s.reverse.takeWhile fun c => c ≠ 47).reverse
  (s.take (s.length - f.length), f)

/-- The ways a run of the engine can abort. -/
inductive Abort : Type
  | decodeError
  | panicSlice
  | lengthMismatch
deriving DecidableEq

/-- The method `Location.Split` of the source: `filepath.Split` applied to
`Location.Text`, propagating an abort of `Text`. -/
def Location.Split (l : Str) : Except Abort (Str × Str) :=
  match Location.Text l with
  | .ok s => .ok (splitPath s)
  | .decodeError => .error .decodeError
  | .panicSlice => .error .panicSlice

/-- The derived group key (containing folder) of a location, where defined. -/
def groupKey (l : Str) : Str :=
  match Location.Split l with
  | .ok p => p.1
  | .error _ => []

/-- The derived leaf name (file name) of a location, where defined. -/
def leafName (l : Str) : Str :=
  match Location.Split l with
  | .ok p => p.2
  | .error _ => []

/-- One record of the grouping phase: a location together with the directory
and file parts its `Split` returns.  (The Go source recomputes `Split` in the
sort comparator; `Split` is deterministic, so caching the parts is sound.) -/
structure Entry : Type where
  loc : Str
  dir : Str
  leaf : Str
deriving DecidableEq

/-- Split every location in order, aborting at the first location whose
`Split` aborts, exactly as the grouping loop of the source does. -/
def splitAll : List Str → Except Abort (List Entry)
  | [] => .ok []
  | l :: rest =>
    match Location.Split l with
    | .error e => .error e
    | .ok (d, f) =>
      match splitAll rest with
      | .error e => .error e
      | .ok t => .ok (⟨l, d, f⟩ :: t)

/-- Strict lexicographic byte order, the order of Go's `strings.Compare`
returning -1 and of the string comparison under `sort.Strings`. -/
def lexLt : Str → Str → Bool
  | _, [] => false
  | [], _ :: _ => true
  | a :: as, b :: bs => if a < b then true else if b < a then false else lexLt as bs

/-- Non-strict lexicographic byte order. -/
def lexLe (a b : Str) : Bool := !lexLt b a

/-- The non-strict order on strings, as a relation. -/
def LexLeP (a b : Str) : Prop := lexLe a b = true

instance : DecidableRel LexLeP := fun a b => inferInstanceAs (Decidable (lexLe a b = true))

/-- The within-group order: entries compared by the leaf name, the comparator
of the `sort.Slice` call of the source. -/
def LeafLeP (a b : Entry) : Prop := lexLe a.leaf b.leaf = true

instance : DecidableRel LeafLeP := fun a b => inferInstanceAs (Decidable (lexLe a.leaf b.leaf = true))

/-- Go's `sort.Strings`: a permutation that is non-decreasing in lexicographic
byte order, modelled by insertion sort. -/
def sortStrings (l : List Str) : List Str := List.insertionSort LexLeP l

/-- The `sort.Slice` call of the source sorting one directory's entries by
leaf name, modelled by insertion sort. -/
def sortLeaf (l : List Entry) : List Entry := List.insertionSort LeafLeP l

/-- The process-wide random generator: the infinite stream of draws it will
produce and the position of the next draw. -/
structure RandState : Type where
  pos : Nat
  stream : Nat → Nat

/-- Swap the elements at two positions of a list (identity out of bounds). -/
def listSwap {α : Type*} (l : List α) (i j : Nat) : List α :=
  match l[i]?, l[j]? with
  | some a, some b => (l.set i b).set j a
  | _, _ => l

/-- The Fisher-Yates loop of Go's `rand.Shuffle`: for i from n-1 down to 1,
draw j uniform in [0, i] and swap positions i and j.  The draw at stream
position `pos` reduced mod i+1 models the bounded draw `Int63n(i+1)`. -/
def fyGo {α : Type*} : Nat → List α → RandState → List α × RandState
  | 0, l, st => (l, st)
  | i + 1, l, st =>
    fyGo i (listSwap l (i + 1) (st.stream st.pos % (i + 2))) ⟨st.pos + 1, st.stream⟩

/-- Go's `rnd.Shuffle` on a list, threading the generator state. -/
def fisherYates {α : Type*} (l : List α) (st : RandState) : List α × RandState :=
  fyGo (l.length - 1) l st

/-- Keep the first occurrence of every directory, in order; `seen` plays the
role of the keys already present in the `all` map of the source. -/
def dedupFirstAux (seen : List Str) : List Str → List Str
  | [] => []
  | d :: rest =>
    if d ∈ seen then dedupFirstAux seen rest
    else d :: dedupFirstAux (d :: seen) rest

/-- The list `dirs` built by the grouping loop of the source: the distinct
directories in first-occurrence order. -/
def dedupFirst (l : List Str) : List Str := dedupFirstAux [] l

/-- Walk the (already reordered) `dirs` list; for each directory reorder its
group — shuffling when `shuffleInDir` is set, else sorting by leaf name —
and append it to the output.  This fuses the per-directory reorder loop and
the flatten loop of the source, which is sound because each directory occurs
once in `dirs`.  Randomness is consumed in `dirs` order, as in the source. -/
def reorderGroups (shuffleInDir : Bool) (es : List Entry) :
    List Str → RandState → List Entry × RandState
  | [], st => ([], st)
  | d :: ds, st =>
    if shuffleInDir then
      let p := fisherYates (es.filter fun e => e.dir = d) st
      let q := reorderGroups shuffleInDir es ds p.2
      (p.1 ++ q.1, q.2)
    else
      let q := reorderGroups shuffleInDir es ds st
      (sortLeaf (es.filter fun e => e.dir = d) ++ q.1, q.2)

/-- The function `shuffle` of the current source (part_000): group the
locations by directory keeping first-occurrence order of the distinct
directories; shuffle or sort the directory order; shuffle or sort within each
directory; flatten; abort if the flattened length differs from the input
length. -/
def shuffle (locations : List Str) (shuffleDirs shuffleInDir : Bool) (st : RandState) :
    Except Abort (List Str) × RandState :=
  match splitAll locations with
  | .error e => (.error e, st)
  | .ok es =>
    let dirs0 := dedupFirst (es.map Entry.dir)
    let p := if shuffleDirs then fisherYates dirs0 st else (sortStrings dirs0, st)
    let q := reorderGroups shuffleInDir es p.1 p.2
    let result := q.1.map Entry.loc
    if result.length ≠ locations.length then (.error .lengthMismatch, q.2)
    else (.ok result, q.2)

/-- Collapse each maximal run of equal adjacent elements to one element: the
sequence of distinct group keys in the order their contiguous runs appear. -/
def dedupRuns : List Str → List Str
  | [] => []
  | [d] => [d]
  | d :: d' :: rest =>
    if d = d' then dedupRuns (d' :: rest) else d :: dedupRuns (d' :: rest)

/-- Go's `copy(dst, src)`: the destination becomes the first
`min (len dst) (len src)` elements of the source followed by its own
remaining elements. -/
def goCopy {α : Type*} (dst src : List α) : List α :=
  src.take dst.length ++ dst.drop src.length

/-- The function `shuffle` of the older source (rhythmbox.go) on its
deterministic path (both options false): it appends one `dirs` entry per
location without deduplicating, sorts that list, flattens every group once
per occurrence of its directory in `dirs`, and copies the flattened list
into the caller's slice, truncating to the input length.  The value is the
content of the caller's slice after the call. -/
def shuffleRB (locations : List Str) : Except Abort (List Str) :=
  match splitAll locations with
  | .error e => .error e
  | .ok es =>
    let dirs := sortStrings (es.map Entry.dir)
    let result := (dirs.flatMap fun d => sortLeaf (es.filter fun e => e.dir = d)).map Entry.loc
    .ok (goCopy locations result)

/-- Modelled from the spec: the derived-key extraction as the specification
words it — percent-decode the raw location (the URL query unescaping the
source uses), strip a leading `file://` if the decoded string begins with
it, and split the remainder at the final path separator. -/
def specDerivedKeys (l : Str) : Option (Str × Str) :=
  (queryUnescape l).map fun s =>
    splitPath (if fileScheme.isPrefixOf s then s.drop 7 else s)

/-- The bytes of `file://%2Fmusic%2FArtist%2Fsong.mp3`, the worked example of the
specification. -/
def locFile : Str :=
  [102, 105, 108, 101, 58, 47, 47, 37, 50, 70, 109, 117, 115, 105, 99, 37, 50, 70,
    65, 114, 116, 105, 115, 116, 37, 50, 70, 115, 111, 110, 103, 46, 109, 112, 51]

/-- The percent-decoded form of `locFile`: `file:///music/Artist/song.mp3`. -/
def decFile : Str :=
  [102, 105, 108, 101, 58, 47, 47, 47, 109, 117, 115, 105, 99, 47, 65, 114, 116,
    105, 115, 116, 47, 115, 111, 110, 103, 46, 109, 112, 51]

/-- The bytes of `/music/Artist/`. -/
def grpFile : Str := [47, 109, 117, 115, 105, 99, 47, 65, 114, 116, 105, 115, 116, 47]

/-- The bytes of `song.mp3`. -/
def leafFile : Str := [115, 111, 110, 103, 46, 109, 112, 51]

/-- The bytes of `a.mp3`: decodes cleanly, but to fewer than 7 bytes. -/
def locShort : Str := [97, 46, 109, 112, 51]

/-- The bytes of `dirA/a.mp3`. -/
def locA1 : Str := [100, 105, 114, 65, 47, 97, 46, 109, 112, 51]

/-- The bytes of `dirA/b.mp3`. -/
def locA2 : Str := [100, 105, 114, 65, 47, 98, 46, 109, 112, 51]

/-- The bytes of `dirB/c.mp3`. -/
def locB1 : Str := [100, 105, 114, 66, 47, 99, 46, 109, 112, 51]

/-- A concrete generator state: the all-zero draw stream at position 0. -/
def seedState : RandState := ⟨0, fun _ => 0⟩

instance {ε α : Type*} [DecidableEq ε] [DecidableEq α] : DecidableEq (Except ε α) :=
  fun x y =>
    match x, y with
    | .error a, .error b =>
      if h : a = b then .isTrue (by rw [h]) else .isFalse fun hh => h (Except.error.inj hh)
    | .error _, .ok _ => .isFalse fun hh => Except.noConfusion hh
    | .ok _, .error _ => .isFalse fun hh => Except.noConfusion hh
    | .ok a, .ok b =>
      if h : a = b then .isTrue (by rw [h]) else .isFalse fun hh => h (Except.ok.inj hh)

/-! ### Facts about the lexicographic byte order -/

theorem lexLt_irrefl : ∀ a : Str, lexLt a a = false := by
  intro a
  induction a with
  | nil => rfl
  | cons x xs ih => simp [lexLt, ih]

theorem lexLt_asymm : ∀ a b : Str, lexLt a b = true → lexLt b a = false := by
  intro a
  induction a with
  | nil =>
    intro b h
    cases b with
    | nil => simp [lexLt] at h
    | cons y ys => rfl
  | cons x xs ih =>
    intro b h
    cases b with
    | nil => simp [lexLt] at h
    | cons y ys =>
      simp only [lexLt] at h ⊢
      by_cases hxy : x < y
      · have hyx : ¬ y < x := by omega
        simp [hxy, hyx]
      · by_cases hyx : y < x
        · simp [hxy, hyx] at h
        · simp only [hxy, hyx, if_false] at h ⊢
          exact ih ys h

theorem lexLt_trans : ∀ a b c : Str, lexLt a b = true → lexLt b c = true → lexLt a c = true := by
  intro a
  induction a with
  | nil =>
    intro b c hab hbc
    cases b with
    | nil => simp [lexLt] at hab
    | cons y ys =>
      cases c with
      | nil => simp [lexLt] at hbc
      | cons z zs => rfl
  | cons x xs ih =>
    intro b c hab hbc
    cases b with
    | nil => simp [lexLt] at hab
    | cons y ys =>
      cases c with
      | nil => simp [lexLt] at hbc
      | cons z zs =>
        simp only [lexLt] at hab hbc ⊢
        rcases Nat.lt_trichotomy x y with hxy | hxy | hxy
        · rcases Nat.lt_trichotomy y z with hyz | hyz | hyz
          · have hxz : x < z := by omega
            simp [hxz]
          · subst hyz
            simp [hxy]
          · rw [if_neg (by omega), if_pos hyz] at hbc
            simp at hbc
        · subst hxy
          rcases Nat.lt_trichotomy x z with hxz | hxz | hxz
          · simp [hxz]
          · subst hxz
            simp only [Nat.lt_irrefl, if_false] at hab hbc ⊢
            exact ih ys zs hab hbc
          · rw [if_neg (by omega), if_pos hxz] at hbc
            simp at hbc
        · rw [if_neg (by omega), if_pos hxy] at hab
          simp at hab

theorem lexLt_connex : ∀ a b : Str, lexLt a b = false → lexLt b a = false → a = b := by
  intro a
  induction a with
  | nil =>
    intro b hab _
    cases b with
    | nil => rfl
    | cons y ys => simp [lexLt] at hab
  | cons x xs ih =>
    intro b hab hba
    cases b with
    | nil => simp [lexLt] at hba
    | cons y ys =>
      simp only [lexLt] at hab hba
      by_cases hxy : x < y
      · simp [hxy] at hab
      · by_cases hyx : y < x
        · simp [hxy, hyx] at hba
        · have hxyeq : x = y := by omega
          subst hxyeq
          simp only [hxy, hyx, if_false] at hab hba
          rw [ih ys hab hba]

theorem lexLe_total (a b : Str) : lexLe a b = true ∨ lexLe b a = true := by
  by_cases h : lexLt b a = true
  · right
    simp [lexLe, lexLt_asymm b a h]
  · left
    simp only [lexLe, Bool.not_eq_true] at h ⊢
    simp [h]

theorem lexLe_trans {a b c : Str} (hab : lexLe a b = true) (hbc : lexLe b c = true) :
    lexLe a c = true := by
  simp only [lexLe, Bool.not_eq_true', Bool.not_eq_true] at hab hbc ⊢
  by_cases hca : lexLt c a = true
  · by_cases hba : lexLt a b = true
    · have := lexLt_trans c a b hca hba
      rw [this] at hbc
      exact absurd hbc (by simp)
    · have : a = b := lexLt_connex a b (by simpa using hba) hab
      subst this
      rw [hca] at hbc
      exact absurd hbc (by simp)
  · simpa using hca

instance : IsTotal Str LexLeP := ⟨fun a b => lexLe_total a b⟩

instance : IsTrans Str LexLeP := ⟨fun _ _ _ hab hbc => lexLe_trans hab hbc⟩

instance : IsTotal Entry LeafLeP := ⟨fun a b => lexLe_total a.leaf b.leaf⟩

instance : IsTrans Entry LeafLeP := ⟨fun _ _ _ hab hbc => lexLe_trans hab hbc⟩

/-! ### Swapping two positions is a permutation, hence so is Fisher-Yates -/

theorem count_set_add {α : Type*} [DecidableEq α] :
    ∀ (l : List α) (n : Nat) (b : α) (hn : n < l.length) (x : α),
      (l.set n b).count x + (if l[n] = x then 1 else 0) = l.count x + (if b = x then 1 else 0) := by
  intro l
  induction l with
  | nil => intro n b hn; exact absurd hn (Nat.not_lt_zero n)
  | cons c t ih =>
    intro n b hn x
    cases n with
    | zero =>
      simp only [List.set_cons_zero, List.getElem_cons_zero, List.count_cons, beq_iff_eq]
      by_cases hcx : c = x <;> by_cases hbx : b = x <;> simp [hcx, hbx]
    | succ m =>
      have hm : m < t.length := by simpa using hn
      simp only [List.set_cons_succ, List.getElem_cons_succ, List.count_cons, beq_iff_eq]
      have := ih m b hm x
      by_cases hcx : c = x <;> simp [hcx] <;> omega

theorem listSwap_perm {α : Type*} [DecidableEq α] (l : List α) (i j : Nat) :
    (listSwap l i j).Perm l := by
  cases hi : l[i]? with
  | none =>
    have : listSwap l i j = l := by unfold listSwap; rw [hi]
    rw [this]
  | some a =>
    cases hj : l[j]? with
    | none =>
      have : listSwap l i j = l := by unfold listSwap; rw [hi, hj]
      rw [this]
    | some b =>
      have hsw : listSwap l i j = (l.set i b).set j a := by unfold listSwap; rw [hi, hj]
      obtain ⟨hib, hia⟩ := List.getElem?_eq_some_iff.mp hi
      obtain ⟨hjb, hja⟩ := List.getElem?_eq_some_iff.mp hj
      rw [hsw, List.perm_iff_count]
      intro x
      have hjb' : j < (l.set i b).length := by simpa [List.length_set] using hjb
      have e1 := count_set_add (l.set i b) j a hjb' x
      have e2 := count_set_add l i b hib x
      have hmid : (l.set i b)[j] = b := by
        by_cases hij : i = j
        · subst hij
          exact List.getElem_set_self hjb'
        · rw [List.getElem_set_ne hij hjb']
          exact hja
      rw [hmid] at e1
      rw [hia] at e2
      by_cases hax : a = x <;> by_cases hbx : b = x <;>
        simp only [hax, hbx, if_pos, if_neg, if_true, if_false] at e1 e2 ⊢ <;> omega

theorem fyGo_fst_perm {α : Type*} [DecidableEq α] :
    ∀ (n : Nat) (l : List α) (st : RandState), ((fyGo n l st).1).Perm l := by
  intro n
  induction n with
  | zero => intro l st; exact List.Perm.refl l
  | succ i ih =>
    intro l st
    simp only [fyGo]
    exact (ih _ _).trans (listSwap_perm l (i + 1) (st.stream st.pos % (i + 2)))

theorem fisherYates_fst_perm {α : Type*} [DecidableEq α] (l : List α) (st : RandState) :
    ((fisherYates l st).1).Perm l :=
  fyGo_fst_perm (l.length - 1) l st

theorem fyGo_snd_stream {α : Type*} :
    ∀ (n : Nat) (l : List α) (st : RandState), ((fyGo n l st).2).stream = st.stream := by
  intro n
  induction n with
  | zero => intro l st; rfl
  | succ i ih => intro l st; exact ih _ _

theorem fisherYates_snd_stream {α : Type*} (l : List α) (st : RandState) :
    ((fisherYates l st).2).stream = st.stream :=
  fyGo_snd_stream (l.length - 1) l st

/-! ### Splitting all locations, and the deduplicated directory list -/

theorem splitAll_ok_map :
    ∀ (locs : List Str) (es : List Entry), splitAll locs = .ok es → es.map Entry.loc = locs := by
  intro locs
  induction locs with
  | nil =>
    intro es h
    cases h
    rfl
  | cons l rest ih =>
    intro es h
    simp only [splitAll] at h
    cases hs : Location.Split l with
    | error e => rw [hs] at h; cases h
    | ok p =>
      obtain ⟨d, f⟩ := p
      rw [hs] at h
      cases ht : splitAll rest with
      | error e => rw [ht] at h; cases h
      | ok t =>
        rw [ht] at h
        cases h
        simp [ih t ht]

theorem splitAll_ok_split :
    ∀ (locs : List Str) (es : List Entry), splitAll locs = .ok es →
      ∀ e ∈ es, Location.Split e.loc = .ok (e.dir, e.leaf) := by
  intro locs
  induction locs with
  | nil =>
    intro es h
    cases h
    intro e he
    simp at he
  | cons l rest ih =>
    intro es h
    simp only [splitAll] at h
    cases hs : Location.Split l with
    | error e => rw [hs] at h; cases h
    | ok p =>
      obtain ⟨d, f⟩ := p
      rw [hs] at h
      cases ht : splitAll rest with
      | error e => rw [ht] at h; cases h
      | ok t =>
        rw [ht] at h
        cases h
        intro e he
        rcases List.mem_cons.mp he with he | he
        · subst he
          exact hs
        · exact ih t ht e he

theorem splitAll_error_iff :
    ∀ locs : List Str,
      (∃ e, splitAll locs = .error e) ↔ ∃ l ∈ locs, ∃ a, Location.Split l = .error a := by
  intro locs
  induction locs with
  | nil =>
    constructor
    · rintro ⟨e, h⟩
      cases h
    · rintro ⟨l, hl, _⟩
      simp at hl
  | cons l rest ih =>
    constructor
    · rintro ⟨e, h⟩
      simp only [splitAll] at h
      cases hs : Location.Split l with
      | error a => exact ⟨l, by simp, a, hs⟩
      | ok p =>
        obtain ⟨d, f⟩ := p
        rw [hs] at h
        cases ht : splitAll rest with
        | error e2 =>
          obtain ⟨l2, hl2, a2, ha2⟩ := ih.mp ⟨e2, ht⟩
          exact ⟨l2, by simp [hl2], a2, ha2⟩
        | ok t => rw [ht] at h; cases h
    · rintro ⟨l2, hl2, a2, ha2⟩
      rcases List.mem_cons.mp hl2 with hl2 | hl2
      · subst hl2
        exact ⟨a2, by simp [splitAll, ha2]⟩
      · simp only [splitAll]
        cases hs : Location.Split l with
        | error a => exact ⟨a, rfl⟩
        | ok p =>
          obtain ⟨d, f⟩ := p
          obtain ⟨e2, ht⟩ := ih.mpr ⟨l2, hl2, a2, ha2⟩
          rw [ht]
          exact ⟨e2, rfl⟩

theorem groupKey_of_split {l d f : Str} (h : Location.Split l = .ok (d, f)) : groupKey l = d := by
  simp [groupKey, h]

theorem leafName_of_split {l d f : Str} (h : Location.Split l = .ok (d, f)) : leafName l = f := by
  simp [leafName, h]

theorem mem_dedupFirstAux :
    ∀ (l seen : List Str) (x : Str), x ∈ dedupFirstAux seen l ↔ x ∈ l ∧ x ∉ seen := by
  intro l
  induction l with
  | nil => intro seen x; simp [dedupFirstAux]
  | cons d rest ih =>
    intro seen x
    simp only [dedupFirstAux]
    by_cases hd : d ∈ seen
    · rw [if_pos hd, ih]
      constructor
      · rintro ⟨hx, hs⟩
        exact ⟨List.mem_cons_of_mem d hx, hs⟩
      · rintro ⟨hx, hs⟩
        rcases List.mem_cons.mp hx with hx | hx
        · subst hx; exact absurd hd hs
        · exact ⟨hx, hs⟩
    · rw [if_neg hd]
      constructor
      · intro hx
        rcases List.mem_cons.mp hx with hx | hx
        · subst hx; exact ⟨List.mem_cons_self _ _, hd⟩
        · obtain ⟨h1, h2⟩ := (ih (d :: seen) x).mp hx
          refine ⟨List.mem_cons_of_mem d h1, fun hc => h2 (List.mem_cons_of_mem d hc)⟩
      · rintro ⟨hx, hs⟩
        rcases List.mem_cons.mp hx with hx | hx
        · subst hx; exact List.mem_cons_self x _
        · by_cases hxd : x = d
          · subst hxd; exact List.mem_cons_self x _
          · refine List.mem_cons_of_mem d ((ih (d :: seen) x).mpr ⟨hx, ?_⟩)
            intro hc
            rcases List.mem_cons.mp hc with hc | hc
            · exact hxd hc
            · exact hs hc

theorem nodup_dedupFirstAux : ∀ (l seen : List Str), (dedupFirstAux seen l).Nodup := by
  intro l
  induction l with
  | nil => intro seen; simp [dedupFirstAux]
  | cons d rest ih =>
    intro seen
    simp only [dedupFirstAux]
    by_cases hd : d ∈ seen
    · rw [if_pos hd]; exact ih seen
    · rw [if_neg hd]
      refine List.nodup_cons.mpr ⟨?_, ih (d :: seen)⟩
      intro hc
      exact ((mem_dedupFirstAux rest (d :: seen) d).mp hc).2 (List.mem_cons_self d seen)

theorem mem_dedupFirst (l : List Str) (x : Str) : x ∈ dedupFirst l ↔ x ∈ l := by
  rw [dedupFirst, mem_dedupFirstAux]
  simp

theorem nodup_dedupFirst (l : List Str) : (dedupFirst l).Nodup :=
  nodup_dedupFirstAux l []

/-! ### Flattening the groups of a distinct directory list is a permutation -/

theorem flatMap_filter_congr (d : Str) (es : List Entry) :
    ∀ ds : List Str, d ∉ ds →
      (ds.flatMap fun x => es.filter fun e => e.dir = x) =
        ds.flatMap fun x => (es.filter fun e => ¬ e.dir = d).filter fun e => e.dir = x := by
  intro ds
  induction ds with
  | nil => intro _; rfl
  | cons x ds ih =>
    intro hd
    have hxd : x ≠ d := fun h => hd (h ▸ List.mem_cons_self _ _)
    simp only [List.flatMap_cons]
    rw [ih fun h => hd (List.mem_cons_of_mem x h)]
    congr 1
    rw [List.filter_filter]
    apply List.filter_congr
    intro e _
    by_cases hex : e.dir = x
    · have : ¬ e.dir = d := fun h => hxd (hex ▸ h ▸ rfl)
      simp [hex, this, hxd]
    · simp [hex]

theorem partition_perm :
    ∀ (ds : List Str) (es : List Entry), ds.Nodup → (∀ e ∈ es, e.dir ∈ ds) →
      (ds.flatMap fun d => es.filter fun e => e.dir = d).Perm es := by
  intro ds
  induction ds with
  | nil =>
    intro es _ hcov
    have : es = [] := by
      cases es with
      | nil => rfl
      | cons e t => exact absurd (hcov e (List.mem_cons_self _ _)) (by simp)
    simp [this]
  | cons d ds ih =>
    intro es hnd hcov
    have hnd' : ds.Nodup := (List.nodup_cons.mp hnd).2
    have hdd : d ∉ ds := (List.nodup_cons.mp hnd).1
    simp only [List.flatMap_cons]
    rw [flatMap_filter_congr d es ds hdd]
    have hcov' : ∀ e ∈ es.filter fun e => ¬ e.dir = d, e.dir ∈ ds := by
      intro e he
      obtain ⟨hees, hed⟩ := List.mem_filter.mp he
      have := hcov e hees
      rcases List.mem_cons.mp this with h | h
      · exact absurd h (by simpa using hed)
      · exact h
    have hrest := ih (es.filter fun e => ¬ e.dir = d) hnd' hcov'
    refine List.Perm.trans (List.Perm.append_left _ hrest) ?_
    have hap := List.filter_append_perm (fun e => decide (e.dir = d)) es
    have hfe : (List.filter (fun e => !decide (e.dir = d)) es) =
        List.filter (fun e => decide (¬ e.dir = d)) es := by
      apply List.filter_congr
      intro e _
      simp [decide_not]
    rw [hfe] at hap
    exact hap

/-! ### The walk over the reordered directory list -/

theorem reorderGroups_fst_perm (inDir : Bool) (es : List Entry) :
    ∀ (ds : List Str) (st : RandState),
      ((reorderGroups inDir es ds st).1).Perm
        (ds.flatMap fun d => es.filter fun e => e.dir = d) := by
  intro ds
  induction ds with
  | nil => intro st; simp [reorderGroups]
  | cons d ds ih =>
    intro st
    simp only [reorderGroups, List.flatMap_cons]
    cases inDir with
    | true =>
      simp only [if_true]
      exact List.Perm.append (fisherYates_fst_perm _ st) (ih _)
    | false =>
      simp only [if_false, Bool.false_eq_true]
      exact List.Perm.append (List.perm_insertionSort LeafLeP _) (ih _)

theorem reorderGroups_mem {inDir : Bool} {es : List Entry} {ds : List Str} {st : RandState}
    {e : Entry} (he : e ∈ (reorderGroups inDir es ds st).1) : e ∈ es ∧ e.dir ∈ ds := by
  have hp := (reorderGroups_fst_perm inDir es ds st).mem_iff.mp he
  obtain ⟨d, hd, hef⟩ := List.mem_flatMap.mp hp
  obtain ⟨hees, hed⟩ := List.mem_filter.mp hef
  have : e.dir = d := by simpa using hed
  exact ⟨hees, this ▸ hd⟩

theorem reorderGroups_false_eq (es : List Entry) :
    ∀ (ds : List Str) (st : RandState),
      reorderGroups false es ds st =
        (ds.flatMap fun d => sortLeaf (es.filter fun e => e.dir = d), st) := by
  intro ds
  induction ds with
  | nil => intro st; rfl
  | cons d ds ih =>
    intro st
    simp only [reorderGroups, List.flatMap_cons, if_false, Bool.false_eq_true, ih st]

/-! ### The key sequence of the flattened output: one contiguous run per directory -/

theorem dedupRuns_cons_cons_eq (d : Str) (l : List Str) :
    dedupRuns (d :: d :: l) = dedupRuns (d :: l) := by
  simp [dedupRuns]

theorem dedupRuns_cons_cons_ne {d d' : Str} (h : d ≠ d') (l : List Str) :
    dedupRuns (d :: d' :: l) = d :: dedupRuns (d' :: l) := by
  simp [dedupRuns, h]

theorem dedupRuns_replicate_append (d : Str) :
    ∀ (n : Nat) (l : List Str),
      dedupRuns (List.replicate (n + 1) d ++ l) = dedupRuns (d :: l) := by
  intro n
  induction n with
  | zero => intro l; rfl
  | succ m ih =>
    intro l
    have hrep : List.replicate (m + 2) d ++ l = d :: (List.replicate (m + 1) d ++ l) := by
      rw [List.replicate_succ, List.cons_append]
    have hrep2 : List.replicate (m + 1) d ++ l = d :: (List.replicate m d ++ l) := by
      rw [List.replicate_succ, List.cons_append]
    rw [hrep, hrep2, dedupRuns_cons_cons_eq, ← hrep2, ih]

theorem map_dir_replicate {es : List Entry} {d : Str} {blk : List Entry}
    (h : blk.Perm (es.filter fun e => e.dir = d)) :
    blk.map Entry.dir = List.replicate blk.length d := by
  have hall : ∀ b ∈ blk.map Entry.dir, b = d := by
    intro b hb
    obtain ⟨e, he, hbe⟩ := List.mem_map.mp hb
    have hef := h.mem_iff.mp he
    obtain ⟨_, hed⟩ := List.mem_filter.mp hef
    rw [← hbe]
    simpa using hed
  have := List.eq_replicate_of_mem hall
  simpa using this

theorem exists_cons_of_perm_ne_nil {α : Type*} {blk g : List α} (hp : blk.Perm g)
    (hne : g ≠ []) : ∃ e t, blk = e :: t := by
  cases hb : blk with
  | nil =>
    rw [hb] at hp
    exact absurd (List.perm_nil.mp hp.symm) hne
  | cons e t => exact ⟨e, t, rfl⟩

theorem reorderGroups_cons_head (inDir : Bool) (es : List Entry) (d : Str) (ds : List Str)
    (st : RandState) (hne : (es.filter fun e => e.dir = d) ≠ []) :
    ∃ e tl, (reorderGroups inDir es (d :: ds) st).1 = e :: tl ∧ e.dir = d := by
  cases inDir with
  | true =>
    simp only [reorderGroups, if_true]
    have hp := fisherYates_fst_perm (es.filter fun e => e.dir = d) st
    obtain ⟨e, t, hb⟩ := exists_cons_of_perm_ne_nil hp hne
    refine ⟨e, t ++ _, by rw [hb, List.cons_append], ?_⟩
    have he : e ∈ (fisherYates (es.filter fun e => e.dir = d) st).1 := by
      rw [hb]; exact List.mem_cons_self _ _
    have := hp.mem_iff.mp he
    simpa using (List.mem_filter.mp this).2
  | false =>
    simp only [reorderGroups, if_false, Bool.false_eq_true]
    have hp := List.perm_insertionSort LeafLeP (es.filter fun e => e.dir = d)
    obtain ⟨e, t, hb⟩ := exists_cons_of_perm_ne_nil hp hne
    refine ⟨e, t ++ _, by rw [sortLeaf, hb, List.cons_append], ?_⟩
    have he : e ∈ sortLeaf (es.filter fun e => e.dir = d) := by
      rw [sortLeaf, hb]; exact List.mem_cons_self _ _
    have := (List.mem_insertionSort LeafLeP).mp he
    simpa using (List.mem_filter.mp this).2

theorem dedupRuns_block_append {es : List Entry} {d : Str} {blk : List Entry} {ks : List Str}
    (hp : blk.Perm (es.filter fun e => e.dir = d))
    (hne : (es.filter fun e => e.dir = d) ≠ []) :
    dedupRuns (blk.map Entry.dir ++ ks) = dedupRuns (d :: ks) := by
  have hmap := map_dir_replicate hp
  have hlen : blk.length ≠ 0 := by
    rw [hp.length_eq]
    intro h0
    exact hne (List.eq_nil_of_length_eq_zero h0)
  obtain ⟨m, hm⟩ := Nat.exists_eq_succ_of_ne_zero hlen
  rw [hmap, hm, dedupRuns_replicate_append]

theorem reorderGroups_keys (inDir : Bool) (es : List Entry) :
    ∀ (ds : List Str) (st : RandState), ds.Chain' (fun a b => a ≠ b) →
      (∀ d ∈ ds, (es.filter fun e => e.dir = d) ≠ []) →
      dedupRuns (((reorderGroups inDir es ds st).1).map Entry.dir) = ds := by
  intro ds
  induction ds with
  | nil => intro st _ _; rfl
  | cons d ds ih =>
    intro st hch hne
    have hned : (es.filter fun e => e.dir = d) ≠ [] := hne d (List.mem_cons_self _ _)
    have hblk : ∀ (blk : List Entry) (st2 : RandState),
        blk.Perm (es.filter fun e => e.dir = d) →
        dedupRuns ((blk ++ (reorderGroups inDir es ds st2).1).map Entry.dir) = d :: ds := by
      intro blk st2 hp
      rw [List.map_append, dedupRuns_block_append hp hned]
      cases ds with
      | nil => rfl
      | cons d' ds' =>
        have hch2 := List.chain'_cons.mp hch
        have hne' : (es.filter fun e => e.dir = d') ≠ [] :=
          hne d' (List.mem_cons_of_mem d (List.mem_cons_self _ _))
        obtain ⟨e0, tl, hrg, he0⟩ := reorderGroups_cons_head inDir es d' ds' st2 hne'
        rw [hrg]
        simp only [List.map_cons, he0]
        rw [dedupRuns_cons_cons_ne hch2.1]
        refine congrArg (List.cons d) ?_
        have hih := ih st2 hch2.2 fun x hx => hne x (List.mem_cons_of_mem d hx)
        rw [hrg] at hih
        simpa [he0] using hih
    cases inDir with
    | true =>
      simp only [reorderGroups, if_true]
      exact hblk _ _ (fisherYates_fst_perm _ st)
    | false =>
      simp only [reorderGroups, if_false, Bool.false_eq_true]
      exact hblk _ _ (List.perm_insertionSort LeafLeP _)

/-! ### Within-group order of the flattened output -/

theorem chain_imp_of_mem {α : Type*} {R S : α → α → Prop} :
    ∀ l : List α, (∀ a ∈ l, ∀ b ∈ l, R a b → S a b) → l.Chain' R → l.Chain' S := by
  intro l
  induction l with
  | nil => intro _ _; exact List.chain'_nil
  | cons a t ih =>
    cases t with
    | nil => intro _ _; simp
    | cons b t2 =>
      intro hmem hch
      obtain ⟨hab, hch2⟩ := List.chain'_cons.mp hch
      refine List.chain'_cons.mpr
        ⟨hmem a (List.mem_cons_self _ _) b (List.mem_cons_of_mem a (List.mem_cons_self _ _)) hab,
          ?_⟩
      exact ih (fun x hx y hy hr =>
        hmem x (List.mem_cons_of_mem a hx) y (List.mem_cons_of_mem a hy) hr) hch2

theorem flatMap_sortLeaf_chain (es : List Entry) :
    ∀ ds : List Str, ds.Nodup →
      (ds.flatMap fun d => sortLeaf (es.filter fun e => e.dir = d)).Chain'
        (fun e1 e2 => e1.dir = e2.dir → LeafLeP e1 e2) := by
  intro ds
  induction ds with
  | nil => intro _; exact List.chain'_nil
  | cons d ds ih =>
    intro hnd
    simp only [List.flatMap_cons]
    rw [List.chain'_append]
    refine ⟨?_, ih (List.nodup_cons.mp hnd).2, ?_⟩
    · have hs := List.sorted_insertionSort LeafLeP (es.filter fun e => e.dir = d)
      simp only [sortLeaf]
      exact @List.Chain'.imp Entry LeafLeP (fun e1 e2 => e1.dir = e2.dir → LeafLeP e1 e2)
        (fun a b hr _ => hr) _ (List.Pairwise.chain' hs)
    · intro x hx y hy hxy
      exfalso
      have hxmem : x ∈ sortLeaf (es.filter fun e => e.dir = d) :=
        List.mem_of_mem_getLast? hx
      have hxd : x.dir = d := by
        have := (List.mem_insertionSort LeafLeP).mp hxmem
        simpa using (List.mem_filter.mp this).2
      have hymem : y ∈ ds.flatMap fun d => sortLeaf (es.filter fun e => e.dir = d) :=
        List.mem_of_mem_head? hy
      obtain ⟨d', hd', hyin⟩ := List.mem_flatMap.mp hymem
      have hyd : y.dir = d' := by
        have := (List.mem_insertionSort LeafLeP).mp hyin
        simpa using (List.mem_filter.mp this).2
      have : d ∈ ds := by
        rw [← hxy, hxd] at hyd
        exact hyd ▸ hd'
      exact (List.nodup_cons.mp hnd).1 this

theorem reorderGroups_snd_stream (inDir : Bool) (es : List Entry) :
    ∀ (ds : List Str) (st : RandState),
      ((reorderGroups inDir es ds st).2).stream = st.stream := by
  intro ds
  induction ds with
  | nil => intro st; rfl
  | cons d ds ih =>
    intro st
    cases inDir with
    | true =>
      simp only [reorderGroups, if_true]
      rw [ih]
      exact fisherYates_snd_stream _ st
    | false =>
      simp only [reorderGroups, if_false, Bool.false_eq_true]
      exact ih st

/-! ### Facts holding on every successful run of the engine -/

theorem shuffle_ok_elim {locations : List Str} {sd si : Bool} {st : RandState} {out : List Str}
    (h : (shuffle locations sd si st).1 = .ok out) :
    ∃ (es : List Entry) (dirs : List Str) (st1 : RandState),
      splitAll locations = .ok es ∧
      dirs.Perm (dedupFirst (es.map Entry.dir)) ∧
      (sd = false → dirs = sortStrings (dedupFirst (es.map Entry.dir))) ∧
      out = ((reorderGroups si es dirs st1).1).map Entry.loc := by
  unfold shuffle at h
  cases hsp : splitAll locations with
  | error e =>
    rw [hsp] at h
    simp at h
  | ok es =>
    rw [hsp] at h
    simp only [] at h
    cases sd with
    | false =>
      simp only [Bool.false_eq_true, if_false] at h
      by_cases hl : (((reorderGroups si es (sortStrings (dedupFirst (es.map Entry.dir))) st).1).map
          Entry.loc).length ≠ locations.length
      · rw [if_pos hl] at h
        simp at h
      · rw [if_neg hl] at h
        refine ⟨es, sortStrings (dedupFirst (es.map Entry.dir)), st, rfl,
          List.perm_insertionSort _ _, fun _ => rfl, ?_⟩
        exact (Except.ok.inj h).symm
    | true =>
      simp only [if_true] at h
      by_cases hl : (((reorderGroups si es
          ((fisherYates (dedupFirst (es.map Entry.dir)) st).1)
          ((fisherYates (dedupFirst (es.map Entry.dir)) st).2)).1).map
          Entry.loc).length ≠ locations.length
      · rw [if_pos hl] at h
        simp at h
      · rw [if_neg hl] at h
        refine ⟨es, (fisherYates (dedupFirst (es.map Entry.dir)) st).1,
          (fisherYates (dedupFirst (es.map Entry.dir)) st).2, rfl,
          fisherYates_fst_perm _ st, ?_, ?_⟩
        · intro hc
          exact absurd hc (by decide)
        · exact (Except.ok.inj h).symm

theorem dirs_facts {es : List Entry} {dirs : List Str}
    (hp : dirs.Perm (dedupFirst (es.map Entry.dir))) :
    dirs.Nodup ∧ (∀ e ∈ es, e.dir ∈ dirs) ∧
      ∀ d ∈ dirs, (es.filter fun e => e.dir = d) ≠ [] := by
  refine ⟨hp.symm.nodup (nodup_dedupFirst _), ?_, ?_⟩
  · intro e he
    refine hp.mem_iff.mpr ((mem_dedupFirst _ _).mpr ?_)
    exact List.mem_map_of_mem Entry.dir he
  · intro d hd
    have hd2 := (mem_dedupFirst _ _).mp (hp.mem_iff.mp hd)
    obtain ⟨e, he, hde⟩ := List.mem_map.mp hd2
    have : e ∈ es.filter fun x => x.dir = d := by
      rw [List.mem_filter]
      exact ⟨he, by simp [hde]⟩
    exact List.ne_nil_of_mem this

theorem shuffle_ok_perm {locations : List Str} {sd si : Bool} {st : RandState} {out : List Str}
    (h : (shuffle locations sd si st).1 = .ok out) : out.Perm locations := by
  obtain ⟨es, dirs, st1, hsp, hdp, _, hout⟩ := shuffle_ok_elim h
  obtain ⟨hnd, hcov, _⟩ := dirs_facts hdp
  have h3 : ((reorderGroups si es dirs st1).1).Perm es :=
    (reorderGroups_fst_perm si es dirs st1).trans (partition_perm dirs es hnd hcov)
  have h4 := h3.map Entry.loc
  rw [splitAll_ok_map locations es hsp] at h4
  rw [hout]
  exact h4

theorem out_map_groupKey {locations : List Str} {es : List Entry} {si : Bool} {dirs : List Str}
    {st1 : RandState} (hsp : splitAll locations = .ok es) :
    (((reorderGroups si es dirs st1).1).map Entry.loc).map groupKey =
      ((reorderGroups si es dirs st1).1).map Entry.dir := by
  rw [List.map_map]
  apply List.map_congr_left
  intro e he
  have hees := (reorderGroups_mem he).1
  exact groupKey_of_split (splitAll_ok_split locations es hsp e hees)

theorem shuffle_no_error {locations : List Str} {es : List Entry} (sd si : Bool) (st : RandState)
    (hsp : splitAll locations = .ok es) :
    ∃ out, (shuffle locations sd si st).1 = .ok out := by
  have hlen : ∀ (dirs : List Str) (st1 : RandState), dirs.Perm (dedupFirst (es.map Entry.dir)) →
      (((reorderGroups si es dirs st1).1).map Entry.loc).length = locations.length := by
    intro dirs st1 hdp
    obtain ⟨hnd, hcov, _⟩ := dirs_facts hdp
    have h3 : ((reorderGroups si es dirs st1).1).Perm es :=
      (reorderGroups_fst_perm si es dirs st1).trans (partition_perm dirs es hnd hcov)
    have h4 := h3.map Entry.loc
    rw [splitAll_ok_map locations es hsp] at h4
    exact h4.length_eq
  unfold shuffle
  rw [hsp]
  simp only []
  cases sd with
  | false =>
    simp only [Bool.false_eq_true, if_false]
    have hc := hlen (sortStrings (dedupFirst (es.map Entry.dir))) st
      (List.perm_insertionSort _ _)
    exact ⟨_, by rw [if_neg fun hne => hne hc]⟩
  | true =>
    simp only [if_true]
    have hc := hlen (fisherYates (dedupFirst (es.map Entry.dir)) st).1
      (fisherYates (dedupFirst (es.map Entry.dir)) st).2 (fisherYates_fst_perm _ st)
    exact ⟨_, by rw [if_neg fun hne => hne hc]⟩

theorem split_error_iff_text (l : Str) :
    (∃ a, Location.Split l = .error a) ↔
      (Location.Text l = .decodeError ∨ Location.Text l = .panicSlice) := by
  unfold Location.Split
  cases h : Location.Text l <;> simp [h]

theorem shuffle_error_iff (locations : List Str) (sd si : Bool) (st : RandState) :
    (∃ e, (shuffle locations sd si st).1 = .error e) ↔
      ∃ l ∈ locations, Location.Text l = .decodeError ∨ Location.Text l = .panicSlice := by
  constructor
  · rintro ⟨e, he⟩
    cases hsp : splitAll locations with
    | error e2 =>
      obtain ⟨l, hl, a, ha⟩ := (splitAll_error_iff locations).mp ⟨e2, hsp⟩
      exact ⟨l, hl, (split_error_iff_text l).mp ⟨a, ha⟩⟩
    | ok es =>
      obtain ⟨out, hout⟩ := shuffle_no_error sd si st hsp
      rw [hout] at he
      simp at he
  · rintro ⟨l, hl, habn⟩
    obtain ⟨a, ha⟩ := (split_error_iff_text l).mpr habn
    obtain ⟨e2, hsp⟩ := (splitAll_error_iff locations).mpr ⟨l, hl, a, ha⟩
    refine ⟨e2, ?_⟩
    unfold shuffle
    rw [hsp]

theorem shuffle_false_false_snd (locations : List Str) (st : RandState) :
    (shuffle locations false false st).2 = st := by
  unfold shuffle
  cases hsp : splitAll locations with
  | error e => rfl
  | ok es =>
    simp only [Bool.false_eq_true, if_false, reorderGroups_false_eq]
    split <;> rfl

theorem shuffle_snd_stream (locations : List Str) (sd si : Bool) (st : RandState) :
    ((shuffle locations sd si st).2).stream = st.stream := by
  unfold shuffle
  cases hsp : splitAll locations with
  | error e => rfl
  | ok es =>
    simp only []
    split <;> split <;>
      simp [reorderGroups_snd_stream, fisherYates_snd_stream]

theorem shuffle_false_false_fst (locations : List Str) (st st2 : RandState) :
    (shuffle locations false false st).1 = (shuffle locations false false st2).1 := by
  unfold shuffle
  cases hsp : splitAll locations with
  | error e => rfl
  | ok es =>
    simp only [Bool.false_eq_true, if_false, reorderGroups_false_eq]
    split_ifs <;> rfl

theorem text_abnormal_iff (l : Str) :
    (Location.Text l = .decodeError ∨ Location.Text l = .panicSlice) ↔
      (queryUnescape l = none ∨ ∃ s, queryUnescape l = some s ∧ s.length < 7) := by
  unfold Location.Text
  cases hq : queryUnescape l with
  | none => simp
  | some s =>
    by_cases hs : s.length < 7
    · simp [hs]
    · by_cases ht : s.take 7 = fileScheme <;> simp [ht, hs]

theorem mem_of_mem_flatMap_sortLeaf {es : List Entry} {ds : List Str} {x : Entry}
    (hx : x ∈ ds.flatMap fun d => sortLeaf (es.filter fun e => e.dir = d)) : x ∈ es := by
  obtain ⟨d, _, hin⟩ := List.mem_flatMap.mp hx
  simp only [sortLeaf] at hin
  have := (List.mem_insertionSort LeafLeP).mp hin
  exact (List.mem_filter.mp this).1

/-! ### The claims -/

/-- C1: for every input sequence of location records and every combination of the
two boolean flags (and every state of the random source), a successful run of the
reorder engine returns a permutation of the input: same multiset of records and
same length. -/
theorem C1_shuffle_perm (locations : List Str) (sd si : Bool) (st : RandState)
    (out : List Str) (h : (shuffle locations sd si st).1 = .ok out) :
    out.Perm locations ∧ out.length = locations.length :=
  ⟨shuffle_ok_perm h, (shuffle_ok_perm h).length_eq⟩

/-- Witness for C1 at a concrete input with both shuffle flags set. -/
theorem C1_shuffle_perm_witness :
    (shuffle [locA1, locB1] true true seedState).1 = .ok [locB1, locA1] ∧
      (([locB1, locA1] : List Str).Perm [locA1, locB1] ∧
        ([locB1, locA1] : List Str).length = ([locA1, locB1] : List Str).length) :=
  ⟨by decide, C1_shuffle_perm [locA1, locB1] true true seedState [locB1, locA1] (by decide)⟩

/-- C2 (amended): for every raw location whose percent-decoded form is at least 7
bytes long, the code's derived keys are exactly those of the procedure the spec
describes: percent-decode, strip a leading `file://` if the decoded string begins
with it, and split at the final path separator, the group key keeping the trailing
separator.  (Locations decoding to fewer than 7 bytes panic instead of yielding
keys.)  The spec's worked example is the witness below. -/
theorem C2_keys_agree (l s : Str) (hq : queryUnescape l = some s) (hlen : 7 ≤ s.length)
    (p : Str × Str) : Location.Split l = .ok p ↔ specDerivedKeys l = some p := by
  have hnl : ¬ s.length < 7 := by omega
  by_cases hps : fileScheme <+: s
  · have ht : s.take 7 = fileScheme := (List.prefix_iff_eq_take.mp hps).symm
    simp [Location.Split, Location.Text, specDerivedKeys, hq, hnl, ht, hps]
  · have ht : ¬ s.take 7 = fileScheme := fun hc => hps (List.prefix_iff_eq_take.mpr hc.symm)
    simp [Location.Split, Location.Text, specDerivedKeys, hq, hnl, ht, hps]

/-- Witness for C2: the spec's example location yields group key `/music/Artist/`
and leaf name `song.mp3`. -/
theorem C2_keys_agree_witness :
    queryUnescape locFile = some decFile ∧ 7 ≤ decFile.length ∧
      Location.Split locFile = .ok (grpFile, leafFile) :=
  ⟨by decide, by decide,
    (C2_keys_agree locFile decFile (by decide) (by decide) (grpFile, leafFile)).mpr (by decide)⟩

/-- C2 counterexample: the claim fails as stated.  On the location `a.mp3` the
procedure the spec describes yields the keys (empty group, leaf `a.mp3`), but the
code's `Split` panics on the 7-byte slice and yields no keys at all. -/
theorem C2_counterexample :
    specDerivedKeys locShort = some ([], locShort) ∧
      Location.Split locShort = .error .panicSlice :=
  ⟨by decide, by decide⟩

/-- C3: when shuffleDirs is false, the sequence of distinct group keys, taken in
the order their contiguous runs appear in the output, is lexicographically
non-decreasing in byte order. -/
theorem C3_sorted_group_runs (locations : List Str) (si : Bool) (st : RandState)
    (out : List Str) (h : (shuffle locations false si st).1 = .ok out) :
    (dedupRuns (out.map groupKey)).Chain' fun a b => lexLe a b = true := by
  obtain ⟨es, dirs, st1, hsp, hdp, hsort, hout⟩ := shuffle_ok_elim h
  obtain ⟨hnd, hcov, hne⟩ := dirs_facts hdp
  have hkeys : out.map groupKey = ((reorderGroups si es dirs st1).1).map Entry.dir := by
    rw [hout]
    exact out_map_groupKey hsp
  rw [hkeys, reorderGroups_keys si es dirs st1 (List.Pairwise.chain' hnd) hne, hsort rfl]
  exact List.Pairwise.chain' (List.sorted_insertionSort LexLeP _)

/-- Witness for C3 at a concrete two-directory input given out of order. -/
theorem C3_sorted_group_runs_witness :
    (shuffle [locB1, locA1] false false seedState).1 = .ok [locA1, locB1] ∧
      (dedupRuns (([locA1, locB1] : List Str).map groupKey)).Chain'
        (fun a b => lexLe a b = true) :=
  ⟨by decide, C3_sorted_group_runs [locB1, locA1] false seedState [locA1, locB1] (by decide)⟩

/-- C4: when shuffleInDir is false, any two adjacent output records sharing a group
key have lexicographically non-decreasing leaf names — within each contiguous run
of one group key, the leaf names are sorted in byte order. -/
theorem C4_sorted_within_runs (locations : List Str) (sd : Bool) (st : RandState)
    (out : List Str) (h : (shuffle locations sd false st).1 = .ok out) :
    out.Chain' fun a b => groupKey a = groupKey b → lexLe (leafName a) (leafName b) = true := by
  obtain ⟨es, dirs, st1, hsp, hdp, _, hout⟩ := shuffle_ok_elim h
  obtain ⟨hnd, _, _⟩ := dirs_facts hdp
  rw [hout, reorderGroups_false_eq]
  rw [List.chain'_map]
  refine chain_imp_of_mem _ ?_ (flatMap_sortLeaf_chain es dirs hnd)
  intro a ha b hb hr hk
  have ha2 := splitAll_ok_split locations es hsp a (mem_of_mem_flatMap_sortLeaf ha)
  have hb2 := splitAll_ok_split locations es hsp b (mem_of_mem_flatMap_sortLeaf hb)
  have hkey : a.dir = b.dir := by
    rw [← groupKey_of_split ha2, ← groupKey_of_split hb2]
    exact hk
  have := hr hkey
  rw [leafName_of_split ha2, leafName_of_split hb2]
  exact this

/-- Witness for C4 at a concrete one-directory input given out of order. -/
theorem C4_sorted_within_runs_witness :
    (shuffle [locA2, locA1] false false seedState).1 = .ok [locA1, locA2] ∧
      ([locA1, locA2] : List Str).Chain'
        (fun a b => groupKey a = groupKey b → lexLe (leafName a) (leafName b) = true) :=
  ⟨by decide, C4_sorted_within_runs [locA2, locA1] false seedState [locA1, locA2] (by decide)⟩

/-- C5: on every successful run, regardless of flags, all records sharing a derived
group key form one contiguous run of the output (the run keys are pairwise
distinct), and every input record appears in the output. -/
theorem C5_grouping (locations : List Str) (sd si : Bool) (st : RandState)
    (out : List Str) (h : (shuffle locations sd si st).1 = .ok out) :
    (dedupRuns (out.map groupKey)).Nodup ∧ ∀ l ∈ locations, l ∈ out := by
  obtain ⟨es, dirs, st1, hsp, hdp, _, hout⟩ := shuffle_ok_elim h
  obtain ⟨hnd, hcov, hne⟩ := dirs_facts hdp
  constructor
  · have hkeys : out.map groupKey = ((reorderGroups si es dirs st1).1).map Entry.dir := by
      rw [hout]
      exact out_map_groupKey hsp
    rw [hkeys, reorderGroups_keys si es dirs st1 (List.Pairwise.chain' hnd) hne]
    exact hnd
  · intro l hl
    exact (shuffle_ok_perm h).mem_iff.mpr hl

/-- Witness for C5 at a concrete input with both shuffle flags set. -/
theorem C5_grouping_witness :
    (shuffle [locA1, locB1] true true seedState).1 = .ok [locB1, locA1] ∧
      ((dedupRuns (([locB1, locA1] : List Str).map groupKey)).Nodup ∧
        ∀ l ∈ ([locA1, locB1] : List Str), l ∈ ([locB1, locA1] : List Str)) :=
  ⟨by decide, C5_grouping [locA1, locB1] true true seedState [locB1, locA1] (by decide)⟩

/-- C6 (amended): the engine aborts — producing no reordered sequence — exactly
when some input location either has malformed percent-encoding or percent-decodes
to fewer than 7 bytes (the slice panic of `Location.Text`). -/
theorem C6_abort_iff (locations : List Str) (sd si : Bool) (st : RandState) :
    (∃ e, (shuffle locations sd si st).1 = .error e) ↔
      ∃ l ∈ locations,
        queryUnescape l = none ∨ ∃ s, queryUnescape l = some s ∧ s.length < 7 := by
  rw [shuffle_error_iff]
  constructor
  · rintro ⟨l, hl, hx⟩
    exact ⟨l, hl, (text_abnormal_iff l).mp hx⟩
  · rintro ⟨l, hl, hx⟩
    exact ⟨l, hl, (text_abnormal_iff l).mpr hx⟩

/-- C6 counterexample: the claim's "only if" direction fails — on the location
`a.mp3` percent-decoding succeeds, yet the run aborts (with the slice panic), so
aborting is not equivalent to malformed percent-encoding. -/
theorem C6_counterexample :
    (shuffle [locShort] false false seedState).1 = .error .panicSlice ∧
      queryUnescape locShort = some locShort :=
  ⟨by decide, by decide⟩

/-- C7: the non-shuffle path is deterministic: runs of shuffle with both flags
false produce identical outputs from any two states of the random source — in
particular a second run right after a first one returns the same sequence, even
when distinct records have equal leaf names. -/
theorem C7_deterministic (locations : List Str) (st st2 : RandState) :
    (shuffle locations false false st).1 = (shuffle locations false false st2).1 :=
  shuffle_false_false_fst locations st st2

/-- C8: the engine is pure apart from the random source: the draw stream itself is
never altered for any flags (only the read position can advance), and with both
shuffle flags false the random state is returned untouched, so randomness is
consumed only when a shuffle flag is set.  The input list is a value of the
embedding, so the caller's sequence is unchanged by construction. -/
theorem C8_frame (locations : List Str) (st : RandState) :
    (shuffle locations false false st).2 = st ∧
      ∀ sd si : Bool, ((shuffle locations sd si st).2).stream = st.stream :=
  ⟨shuffle_false_false_snd locations st, fun sd si => shuffle_snd_stream locations sd si st⟩

/-- C9: `Location.Text` evaluates the 7-byte slice unconditionally, so every
location whose percent-decoded form is shorter than 7 bytes panics rather than
returning a value or the documented fatal decode error. -/
theorem C9_text_panics (l s : Str) (hq : queryUnescape l = some s) (hs : s.length < 7) :
    Location.Text l = .panicSlice := by
  simp [Location.Text, hq, hs]

/-- Witness for C9: the well-formed location `a.mp3` decodes to 5 bytes and
panics. -/
theorem C9_text_panics_witness :
    queryUnescape locShort = some locShort ∧ locShort.length < 7 ∧
      Location.Text locShort = .panicSlice :=
  ⟨by decide, by decide, C9_text_panics locShort locShort (by decide) (by decide)⟩

/-- C10: the two implementations diverge on the deterministic path.  At the input
[dirA/a.mp3, dirA/b.mp3, dirB/c.mp3] the older in-place engine (rhythmbox.go)
leaves [dirA/a.mp3, dirA/b.mp3, dirA/a.mp3] in the caller's slice — it loses
dirB/c.mp3 and duplicates dirA/a.mp3, because its `dirs` list keeps one entry per
record instead of one per distinct directory, so the flattened result repeats
groups and is then truncated by `copy` — while the current engine (part_000)
returns the input sorted.  This contradicts the older function's own
documentation, which says it changes only the order of the elements. -/
theorem C10_divergence :
    shuffleRB [locA1, locA2, locB1] = .ok [locA1, locA2, locA1] ∧
      (shuffle [locA1, locA2, locB1] false false seedState).1 =
        .ok [locA1, locA2, locB1] ∧
      ([locA1, locA2, locA1] : List Str) ≠ [locA1, locA2, locB1] :=
  ⟨by decide, by decide, by decide⟩

end Rhythmtool
